import Mathlib

/-!
Shallow embedding of the retrieval core of memo-cli (query decomposition,
multi-layer search engine, rerank selection, cross-leaf merge, storage
result parsing), translated from the Rust sources:

  src/src/service/search/{types.rs, decompose.rs, engine.rs, merge.rs, multi.rs}
  src/src/llm/{utils.rs, decompose.rs}
  src/local/src/client.rs
  src/src/service/query.rs

Floating-point scores (`f32`) are modelled as rationals; machine sizes
(`usize`) as `Nat`. The `HashMap` used in the merge collapse has an
unspecified iteration order, which is modelled by an explicit `order`
parameter ranging over permutations of the key list.
-/

namespace Memo

/-- Model of `memo_types::ScoreType`. -/
inductive ScoreType where
  | Vector
  | Rerank
deriving DecidableEq, Repr

/-- Model of `memo_types::QueryResult` (fields used by the retrieval core). -/
structure QueryResult where
  id : String
  content : String
  tags : List String
  updated_at : Int
  score : Option ℚ
  score_type : Option ScoreType
deriving DecidableEq, Repr

instance : Inhabited QueryResult :=
  ⟨⟨"", "", [], 0, none, none⟩⟩

/-- Model of `service::search::types::SearchDimension`. -/
inductive SearchDimension where
  | Core
  | Why
  | How
  | Case
  | Note
  | Unknown (s : String)
deriving DecidableEq, Repr

namespace SearchDimension

/-- Model of `SearchDimension::from_str`. -/
def from_str (s : String) : SearchDimension :=
  if s = "core" then .Core
  else if s = "why" then .Why
  else if s = "how" then .How
  else if s = "case" then .Case
  else if s = "note" then .Note
  else .Unknown s

/-- Model of `SearchDimension::as_str`. -/
def as_str : SearchDimension → String
  | .Core => "core"
  | .Why => "why"
  | .How => "how"
  | .Case => "case"
  | .Note => "note"
  | .Unknown s => s

end SearchDimension

/-- Model of `service::search::types::TreeNode`.  Node ids are modelled as `Nat`
(the source formats the allocation counter into the string `node_{k}`,
which is injective, so the counter itself is a faithful id). -/
structure TreeNode where
  id : Nat
  dimension : SearchDimension
  query : String
  children : List Nat
deriving DecidableEq, Repr

/-- Model of `service::search::types::DecompositionTree`.  The `HashMap` of nodes is
modelled as a list in insertion order; all inserted keys are fresh
(strictly increasing counter), so insertion is list append. -/
structure DecompositionTree where
  nodes : List TreeNode
  id_counter : Nat
deriving Repr

namespace DecompositionTree

def new : DecompositionTree := ⟨[], 0⟩

/-- Model of `DecompositionTree::leaf_count`: nodes with no children. -/
def leaf_count (t : DecompositionTree) : Nat :=
  (t.nodes.filter (fun n => n.children.isEmpty)).length

/-- Model of `DecompositionTree::get_leaves`. -/
def get_leaves (t : DecompositionTree) : List TreeNode :=
  t.nodes.filter (fun n => n.children.isEmpty)

/-- Model of `DecompositionTree::node_count`. -/
def node_count (t : DecompositionTree) : Nat := t.nodes.length

end DecompositionTree

/-- Model of `llm::decompose::SubQuery` (post-parse: the decomposer consumes the
already validated list). -/
structure SubQuery where
  dimension : String
  query : String
  needs_refinement : Bool
deriving DecidableEq, Repr

/-- Model of `config::DecompositionConfig`. -/
structure DecompositionConfig where
  max_level : Nat
  max_total_leaves : Nat
  max_children : Nat
deriving Repr

/-- Model of `config::MultiQueryConfig`. -/
structure MultiQueryConfig where
  candidates_per_query : Nat
  top_n_per_leaf : Nat
  min_per_leaf : Nat
  max_total_results : Nat
  dedup_threshold : ℚ
deriving Repr

/-- Model of `service::search::types::SubQueryResult`. -/
structure SubQueryResult where
  node_id : String
  dimension : SearchDimension
  results : List QueryResult
deriving DecidableEq, Repr

/-- Model of `service::search::types::MergedResult`. -/
structure MergedResult where
  memory : QueryResult
  sources : List String
  max_score : ℚ
deriving DecidableEq, Repr

/-! ### Query decomposition (`service::search::decompose.rs`)

`build_decomposition_tree` drives a BFS whose LLM calls are modelled by an
oracle `Nat → Nat → Option (List SubQuery)`: `oracle lvl i` is the parsed
outcome of the `decompose_query` call for the `i`-th queue entry of BFS
level `lvl` (`none` = the call or its XML parse failed). -/

/-- A BFS queue entry `(parent_id?, query_text, level)`. -/
abbrev QEntry := Option Nat × String × Nat

/-- One `tree.alloc_id()` / `tree.add_node(..)` / parent-link step: append a
fresh childless node and push its id onto the parent's `children`. -/
def addChild (t : DecompositionTree) (parent : Option Nat)
    (dim : SearchDimension) (q : String) : DecompositionTree × Nat :=
  let node_id := t.id_counter
  let node : TreeNode := ⟨node_id, dim, q, []⟩
  let nodes := t.nodes ++ [node]
  let nodes :=
    match parent with
    | some pid =>
        nodes.map (fun n =>
          if n.id = pid then { n with children := n.children ++ [node_id] } else n)
    | none => nodes
  (⟨nodes, t.id_counter + 1⟩, node_id)

/-- Processing of one `SubQuery` inside the per-entry loop of
`build_decomposition_tree` (node creation, parent link, conditional
enqueue for the next level). -/
def processSubQuery (cfg : DecompositionConfig) (parent : Option Nat) (level : Nat)
    (acc : DecompositionTree × List QEntry) (sq : SubQuery) :
    DecompositionTree × List QEntry :=
  let (t, nextQ) := acc
  let (t, node_id) := addChild t parent (SearchDimension.from_str sq.dimension) sq.query
  if sq.needs_refinement ∧ level + 1 < cfg.max_level ∧
      t.leaf_count < cfg.max_total_leaves then
    (t, nextQ ++ [(some node_id, sq.query, level + 1)])
  else
    (t, nextQ)

/-- Processing of one queue entry with its LLM response (`Err` adds
nothing; `Ok` is truncated by `limit_children` to `max_children`). -/
def processEntry (cfg : DecompositionConfig) (response : Option (List SubQuery))
    (entry : QEntry) (acc : DecompositionTree × List QEntry) :
    DecompositionTree × List QEntry :=
  match response with
  | none => acc
  | some sqs =>
      (sqs.take cfg.max_children).foldl
        (processSubQuery cfg entry.1 entry.2.2) acc

/-- The per-level loop: pairs each queue entry with its joined LLM result. -/
def processEntries (cfg : DecompositionConfig)
    (oracle : Nat → Nat → Option (List SubQuery)) (lvl : Nat) :
    Nat → List QEntry → DecompositionTree × List QEntry →
      DecompositionTree × List QEntry
  | _, [], acc => acc
  | i, e :: es, acc =>
      processEntries cfg oracle lvl (i + 1) es (processEntry cfg (oracle lvl i) e acc)

/-- One whole BFS level of `build_decomposition_tree`. -/
def processLevel (cfg : DecompositionConfig)
    (oracle : Nat → Nat → Option (List SubQuery)) (lvl : Nat)
    (t : DecompositionTree) (queue : List QEntry) :
    DecompositionTree × List QEntry :=
  processEntries cfg oracle lvl 0 queue (t, [])

/-- The `while` loop of `build_decomposition_tree`.  `fuel` is an upper
bound on the remaining iterations; the source loop runs at most
`max_level` times because `current_level` increments every pass and the
loop breaks once `current_level ≥ max_level`, so starting with
`fuel = max_level` the `fuel = 0` case is never the deciding exit. -/
def buildLoop (cfg : DecompositionConfig)
    (oracle : Nat → Nat → Option (List SubQuery)) :
    Nat → Nat → DecompositionTree → List QEntry → DecompositionTree
  | 0, _, t, _ => t
  | fuel + 1, lvl, t, queue =>
      if queue.isEmpty then t
      else if cfg.max_level ≤ lvl then t
      else if cfg.max_total_leaves ≤ t.leaf_count then t
      else
        let (t', nextQ) := processLevel cfg oracle lvl t queue
        buildLoop cfg oracle fuel (lvl + 1) t' nextQ

/-- Model of `build_decomposition_tree`: BFS from the root entry
`(None, original_query, 0)`.  The original query is only a queue entry; no
node is allocated for it. -/
def build_decomposition_tree (original_query : String)
    (cfg : DecompositionConfig)
    (oracle : Nat → Nat → Option (List SubQuery)) : DecompositionTree :=
  buildLoop cfg oracle cfg.max_level 0 DecompositionTree.new
    [(none, original_query, 0)]

/-- The leaf query texts that `service::search::multi::search` embeds and
searches (one `multi_layer_search` per leaf of the tree). -/
def searchedLeafQueries (t : DecompositionTree) : List String :=
  t.get_leaves.map TreeNode.query

/-! ### Search engine (`service::search::engine.rs`) -/

/-- The candidate budget computed at the top of `multi_layer_search`:
`let max_nodes = if limit < 10 { 50 } else { limit * 10 };`. -/
def max_nodes (limit : Nat) : Nat :=
  if limit < 10 then 50 else limit * 10

/-- The `avg_score` computation inside `should_use_rerank`: the mean of
the scores that are present, `0.0` when none is. -/
def meanScore (candidates : List QueryResult) : ℚ :=
  let scores := candidates.filterMap QueryResult.score
  if scores.isEmpty then 0 else scores.sum / scores.length

/-- Model of `should_use_rerank` (the rerank selector). -/
def should_use_rerank (candidates : List QueryResult) (limit : Nat) : Bool :=
  if candidates.length ≤ limit then false
  else if 1 ≤ candidates.length ∧ candidates.length ≤ 15 ∧
      4/5 < meanScore candidates then false
  else if 16 ≤ candidates.length ∧ candidates.length ≤ 25 ∧
      17/20 < meanScore candidates then false
  else true

/-- The per-pair transformation of `apply_rerank`: replace the score with
the rerank score and set `score_type` to `Rerank`. -/
def setRerankScore (r : QueryResult) (s : ℚ) : QueryResult :=
  { r with score := some s, score_type := some ScoreType.Rerank }

/-- The result-mapping step of `apply_rerank` when rerank is invoked:
`reranked.iter().filter_map(|item| all_candidates.get(item.index).map(..))`.
A pair is `(index, score)`. -/
def apply_rerank_results (all_candidates : List QueryResult)
    (reranked : List (Nat × ℚ)) : List QueryResult :=
  reranked.filterMap (fun item =>
    (all_candidates[item.1]?).map (fun r => setRerankScore r item.2))

/-- The skip branch of `apply_rerank`: stable sort by descending vector
score (missing scores as `0`) and truncate to `limit`. -/
def insertScoreDesc (x : QueryResult) : List QueryResult → List QueryResult
  | [] => [x]
  | y :: ys =>
      if x.score.getD 0 < y.score.getD 0 then x :: y :: ys
      else y :: insertScoreDesc x ys

/-! ### Storage result parsing (`local/src/client.rs`) -/

/-- One row of the Arrow record batches consumed by `parse_query_results`
(`_distance` may be absent/invalid, hence `Option`). -/
structure RawRow where
  id : String
  content : String
  tags : List String
  updated_at : Int
  distance : Option ℚ
deriving DecidableEq, Repr

/-- The `QueryResult` pushed for a row (score type is always `Vector`). -/
def rowToResult (row : RawRow) (score : Option ℚ) : QueryResult :=
  ⟨row.id, row.content, row.tags, row.updated_at, score, some ScoreType.Vector⟩

/-- Model of `parse_query_results` (flattened over the rows of all batches):
`score = 1.0 - distance`; a row is skipped iff both score and threshold
are present and `score < threshold`. -/
def parse_query_results (rows : List RawRow) (threshold : Option ℚ) :
    List QueryResult :=
  rows.filterMap (fun row =>
    let score := row.distance.map (fun d => 1 - d)
    match score, threshold with
    | some s, some t => if s < t then none else some (rowToResult row score)
    | _, _ => some (rowToResult row score))

/-- Model of `service::query::calculate_similarity_score` (a separate helper in the
main crate, not on the `search_by_vector` path): `(1 - d/2).max(0)`. -/
def calculate_similarity_score (distance : ℚ) : ℚ :=
  max (1 - distance / 2) 0

/-! ### LLM utilities (`llm/utils.rs`) -/

/-- UTF-8 encoded length in bytes of one Unicode scalar value. -/
def utf8CharLen (c : Char) : Nat :=
  if c.toNat < 0x80 then 1
  else if c.toNat < 0x800 then 2
  else if c.toNat < 0x10000 then 3
  else 4

/-- Model of `str::len` of a Rust string, i.e. its UTF-8 byte length; strings are
modelled as lists of Unicode scalar values. -/
def utf8Len (s : List Char) : Nat :=
  (s.map utf8CharLen).sum

/-- Rust `char::is_whitespace`: the Unicode `White_Space` property. -/
def rustIsWhitespace (c : Char) : Bool :=
  decide (c.toNat ∈ [0x09, 0x0A, 0x0B, 0x0C, 0x0D, 0x20, 0x85, 0xA0, 0x1680,
    0x2000, 0x2001, 0x2002, 0x2003, 0x2004, 0x2005, 0x2006, 0x2007,
    0x2008, 0x2009, 0x200A, 0x2028, 0x2029, 0x202F, 0x205F, 0x3000])

/-- Rust `str::trim`: drop leading and trailing whitespace characters. -/
def trimChars (s : List Char) : List Char :=
  ((s.dropWhile rustIsWhitespace).reverse.dropWhile rustIsWhitespace).reverse

/-- Model of `is_valid_query`: `let len = query.trim().len(); len >= 5 && len <= 300`
(`len` is the UTF-8 **byte** length). -/
def is_valid_query (query : List Char) : Bool :=
  let len := utf8Len (trimChars query)
  decide (5 ≤ len ∧ len ≤ 300)

/-- Model of `is_valid_dimension`. -/
def is_valid_dimension (dim : String) : Bool :=
  decide (dim ∈ ["core", "why", "how", "case", "note"])

/-! ### Cross-leaf merge (`service::search::merge.rs`)

Stage A fills a `HashMap<String, MergedResult>` keyed by memory id; it is
modelled as an association list in first-encounter order.  `into_values()`
iterates the map in an *unspecified* order, modelled by an explicit
`order : List String` parameter; an order is admissible when it is a
permutation of the map's key list. -/

/-- Model of `format!("{}:{}", sub_result.dimension.as_str(), sub_result.node_id)`. -/
def source_label (sub : SubQueryResult) : String :=
  sub.dimension.as_str ++ ":" ++ sub.node_id

/-- The body of the stage-A entry update (after `or_insert_with`): keep the
highest score seen (overwriting `score`/`score_type` on a strict
improvement) and accumulate the source label, deduplicated. -/
def updateEntry (m : MergedResult) (label : String) (mem : QueryResult) :
    MergedResult :=
  let score := mem.score.getD 0
  let m :=
    if m.max_score < score then
      { m with max_score := score,
               memory := { m.memory with score := some score,
                                         score_type := mem.score_type } }
    else m
  if label ∈ m.sources then m else { m with sources := m.sources ++ [label] }

/-- Model of `id_map.entry(id).or_insert_with(..)` followed by the update, on the
association-list model. -/
def stageAInsert (label : String) (mem : QueryResult) :
    List MergedResult → List MergedResult
  | [] => [updateEntry ⟨mem, [], mem.score.getD 0⟩ label mem]
  | m :: ms =>
      if m.memory.id = mem.id then updateEntry m label mem :: ms
      else m :: stageAInsert label mem ms

/-- Stage A: walk all sub-results in order, collapsing by memory id. -/
def stageA (sub_results : List SubQueryResult) : List MergedResult :=
  sub_results.foldl
    (fun acc sub =>
      sub.results.foldl (fun acc mem => stageAInsert (source_label sub) mem acc) acc)
    []

/-- Model of `id_map.into_values()` under a given iteration order of the keys. -/
def into_values (l : List MergedResult) (order : List String) :
    List MergedResult :=
  order.filterMap (fun id => l.find? (fun m => m.memory.id = id))

/-- Stable insertion for the descending sort by `max_score`
(`merged.sort_by(|a, b| b.max_score.partial_cmp(&a.max_score)..)`):
the new element goes before the first strictly smaller one, i.e. after
every earlier element of its own score class. -/
def insertDesc (x : MergedResult) : List MergedResult → List MergedResult
  | [] => [x]
  | y :: ys =>
      if x.max_score < y.max_score then y :: insertDesc x ys
      else x :: y :: ys

/-- Stage B: stable sort by `max_score` descending (Rust `sort_by` is
stable; a stable sort over a total preorder is unique, so insertion sort
is extensionally the same function). -/
def sortByMaxScoreDesc : List MergedResult → List MergedResult
  | [] => []
  | x :: xs => insertDesc x (sortByMaxScoreDesc xs)

/-- The inner scan of `collect_guaranteed_results` for one leaf: walk the
sorted list, marking up to `min_per_leaf` ids whose sources contain the
leaf's label and which are not yet guaranteed. -/
def collectLeaf (label : String) (min_per_leaf : Nat) :
    List MergedResult → List String → Nat → List String
  | [], g, _ => g
  | m :: ms, g, count =>
      if min_per_leaf ≤ count then g
      else if label ∈ m.sources ∧ m.memory.id ∉ g then
        collectLeaf label min_per_leaf ms (g ++ [m.memory.id]) (count + 1)
      else collectLeaf label min_per_leaf ms g count

/-- Stage C: `collect_guaranteed_results` (the guaranteed id set, modelled
as a duplicate-free list in insertion order). -/
def collect_guaranteed_results (sorted_merged : List MergedResult)
    (sub_results : List SubQueryResult) (min_per_leaf : Nat) : List String :=
  sub_results.foldl
    (fun g sub => collectLeaf (source_label sub) min_per_leaf sorted_merged g 0)
    []

/-- First loop of `build_final_results`: append the guaranteed items in
sorted order; the `Bool` records the early `return` taken as soon as
`results.len() >= max_total`. -/
def finalLoop1 (g : List String) (max_total : Nat) :
    List MergedResult → List String → List MergedResult →
      List MergedResult × List String × Bool
  | [], seen, acc => (acc, seen, false)
  | x :: xs, seen, acc =>
      if x.memory.id ∈ g ∧ x.memory.id ∉ seen then
        if max_total ≤ (acc ++ [x]).length then
          (acc ++ [x], seen ++ [x.memory.id], true)
        else finalLoop1 g max_total xs (seen ++ [x.memory.id]) (acc ++ [x])
      else finalLoop1 g max_total xs seen acc

/-- Second loop of `build_final_results`: fill the remaining slots from
the sorted list, skipping already-seen ids, stopping at `max_total`. -/
def finalLoop2 (max_total : Nat) :
    List MergedResult → List String → List MergedResult → List MergedResult
  | [], _, acc => acc
  | x :: xs, seen, acc =>
      if max_total ≤ acc.length then acc
      else if x.memory.id ∈ seen then finalLoop2 max_total xs seen acc
      else finalLoop2 max_total xs (seen ++ [x.memory.id]) (acc ++ [x])

/-- Stage D: `build_final_results`. -/
def build_final_results (sorted_merged : List MergedResult)
    (guaranteed_ids : List String) (max_total : Nat) : List MergedResult :=
  match finalLoop1 guaranteed_ids max_total sorted_merged [] [] with
  | (res, _, true) => res
  | (res, seen, false) => finalLoop2 max_total sorted_merged seen res

/-- The sorted stage-B list for a given stage-A iteration order. -/
def sortedOf (sub_results : List SubQueryResult) (order : List String) :
    List MergedResult :=
  sortByMaxScoreDesc (into_values (stageA sub_results) order)

/-- Model of `merge_results`, parameterised by the `HashMap` iteration order. -/
def merge_results (sub_results : List SubQueryResult)
    (cfg : MultiQueryConfig) (order : List String) : List MergedResult :=
  let sorted := sortedOf sub_results order
  let guaranteed := collect_guaranteed_results sorted sub_results cfg.min_per_leaf
  build_final_results sorted guaranteed cfg.max_total_results

/-- The final user-facing list built in `service::search::multi::search`:
`merged.iter().take(limit.min(max_total_results)).map(|m| m.memory)`. -/
def final_memories (sub_results : List SubQueryResult)
    (cfg : MultiQueryConfig) (limit : Nat) (order : List String) :
    List QueryResult :=
  ((merge_results sub_results cfg order).take (min limit cfg.max_total_results)).map
    MergedResult.memory

/-! ### Concrete fixtures used by counterexamples and witnesses -/

instance : Inhabited TreeNode := ⟨⟨0, SearchDimension.Core, "", []⟩⟩

/-- The default `DecompositionConfig`: `max_level = 3`,
`max_total_leaves = 12`, `max_children = 4`. -/
def cfgDefault : DecompositionConfig := ⟨3, 12, 4⟩

/-- Four sub-questions, each flagged for further refinement. -/
def sq4 : List SubQuery :=
  [⟨"core", "a", true⟩, ⟨"why", "b", true⟩, ⟨"how", "c", true⟩,
   ⟨"case", "d", true⟩]

/-- An LLM transcript answering every call of the first two BFS levels
with four expandable sub-questions. -/
def oracle16 : Nat → Nat → Option (List SubQuery) :=
  fun lvl _ => if lvl ≤ 1 then some sq4 else none

def mem1 : QueryResult := ⟨"m1", "c1", [], 0, some 2, some ScoreType.Vector⟩

def mem2 : QueryResult := ⟨"m2", "c2", [], 0, some 1, some ScoreType.Vector⟩

/-- Two leaves, each contributing one distinct memory. -/
def subsC1 : List SubQueryResult :=
  [⟨"node_0", SearchDimension.Core, [mem1]⟩,
   ⟨"node_1", SearchDimension.Why, [mem2]⟩]

/-- Config with `min_per_leaf = 1`, `max_total_results = 1`. -/
def cfgC1 : MultiQueryConfig := ⟨50, 5, 1, 1, 0⟩

def memA : QueryResult := ⟨"a", "ca", [], 0, some 1, some ScoreType.Vector⟩

def memB : QueryResult := ⟨"b", "cb", [], 0, some 1, some ScoreType.Vector⟩

/-- One leaf returning two equal-score memories, `a` encountered first. -/
def subsC8 : List SubQueryResult :=
  [⟨"node_0", SearchDimension.Core, [memA, memB]⟩]

/-! ## Theorems -/

/-- C3: the rerank step is skipped (pure vector sort) iff the candidate
count is ≤ `limit`, or the count is in `[1,15]` with mean present score
> 0.80, or the count is in `[16,25]` with mean present score > 0.85
(`meanScore` is the source's `avg_score`: the mean of the scores that are
present, `0` when none is). -/
theorem rerank_skip_iff (candidates : List QueryResult) (limit : Nat) :
    should_use_rerank candidates limit = false ↔
      (candidates.length ≤ limit ∨
        (1 ≤ candidates.length ∧ candidates.length ≤ 15 ∧
          4/5 < meanScore candidates) ∨
        (16 ≤ candidates.length ∧ candidates.length ≤ 25 ∧
          17/20 < meanScore candidates)) := by
  unfold should_use_rerank
  split_ifs with h1 h2 h3
  · simpa using Or.inl h1
  · simpa using Or.inr (Or.inl h2)
  · simpa using Or.inr (Or.inr h3)
  · constructor
    · intro h
      exact absurd h (by simp)
    · rintro (hA | hB | hC)
      · exact absurd hA (by omega)
      · exact absurd hB h2
      · exact absurd hC h3

/-- C6 counterexample: the source computes
`max_nodes = if limit < 10 { 50 } else { limit * 10 }`, so for
`limit = 6` the budget is 50, not `max(50, 60) = 60` as the claim
states. -/
theorem max_nodes_formula_cex :
    max_nodes 6 = 50 ∧ max 50 (6 * 10) = 60 ∧ max_nodes 6 ≠ max 50 (6 * 10) := by
  decide

/-- C6 amended: the budget agrees with `max(50, limit × 10)` exactly when
`limit ≤ 5` or `limit ≥ 10`; for `limit ∈ [6,9]` it is 50 (strictly below
`limit × 10`); in particular for `limit = 6` the budget is 50. -/
theorem max_nodes_amended :
    (∀ limit : Nat, max_nodes limit = max 50 (limit * 10) ↔
      (limit ≤ 5 ∨ 10 ≤ limit)) ∧ max_nodes 6 = 50 := by
  refine ⟨fun limit => ?_, by decide⟩
  unfold max_nodes
  split_ifs with h <;> omega

/-- C7 counterexample: when the rerank provider returns more pairs than
`limit`, `apply_rerank` keeps them all — the mapped result list is not
truncated to `limit` (here 2 results for `limit = 1`). -/
theorem apply_rerank_truncation_cex :
    (apply_rerank_results [mem1, mem2, memA] [(0, 9/10), (1, 1/2)]).length = 2 ∧
    ¬ ((apply_rerank_results [mem1, mem2, memA] [(0, 9/10), (1, 1/2)]).length ≤ 1) := by
  decide

/-- C9 counterexample: `is_valid_query` measures `query.trim().len()` in
UTF-8 **bytes**, not characters: a trimmed 4-character CJK string (12
bytes) is accepted although its character count 4 is below the claimed
minimum of 5. -/
theorem is_valid_query_bytes_cex :
    is_valid_query ['记', '忆', '存', '储'] = true ∧
    (trimChars ['记', '忆', '存', '储']).length = 4 ∧
    ¬ (5 ≤ (trimChars ['记', '忆', '存', '储']).length) := by
  decide

/-- C4 counterexample: a row at L2 distance 1 is returned with score
`1 − 1 = 0`, not `1 − 1/2 = 1/2` as the claim's formula `1 − d/2`
requires. -/
theorem search_score_formula_cex :
    (parse_query_results [⟨"a", "x", [], 0, some 1⟩] (some 0)).map
        QueryResult.score = [some 0] ∧
    (1 - (1 : ℚ) / 2 ≠ 0) := by
  refine ⟨by simp [parse_query_results, rowToResult], by norm_num⟩

/-- C2 counterexample: with the default caps (`max_level = 3`,
`max_total_leaves = 12`, `max_children = 4`) and an LLM returning four
expandable sub-questions per call, the second BFS level adds 16 leaves:
the cap is only checked before a level starts and before enqueueing, so
the returned tree has 16 > 12 leaves. -/
theorem decomposition_leaf_cap_cex :
    (build_decomposition_tree "orig" cfgDefault oracle16).leaf_count = 16 ∧
    cfgDefault.max_total_leaves = 12 ∧ ¬ (16 ≤ 12) := by
  refine ⟨by decide, rfl, by decide⟩

/-- C7 amended: the mapped rerank result list is exactly the provider's
in-range `(index, score)` pairs, in provider order, each mapped to the
candidate at that input position with its score replaced and `score_type`
set to `Rerank`; out-of-range indices are dropped, and the list's length
is the number of in-range pairs — the code performs **no** truncation to
`limit` (it relies on the provider honouring `top_n = limit`). -/
theorem apply_rerank_results_amended (cands : List QueryResult)
    (pairs : List (Nat × ℚ)) :
    apply_rerank_results cands pairs =
      (pairs.filter (fun p => decide (p.1 < cands.length))).map
        (fun p => setRerankScore ((cands[p.1]?).getD default) p.2) ∧
    (apply_rerank_results cands pairs).length =
      (pairs.filter (fun p => decide (p.1 < cands.length))).length := by
  have h : apply_rerank_results cands pairs =
      (pairs.filter (fun p => decide (p.1 < cands.length))).map
        (fun p => setRerankScore ((cands[p.1]?).getD default) p.2) := by
    induction pairs with
    | nil => rfl
    | cons p ps ih =>
      by_cases hp : p.1 < cands.length
      · have hg : cands[p.1]? = some cands[p.1] := List.getElem?_eq_getElem hp
        simp only [apply_rerank_results, List.filterMap_cons] at ih ⊢
        simp [hg, hp, ih]
      · have hg : cands[p.1]? = none := by
          rw [List.getElem?_eq_none_iff]
          omega
        simp only [apply_rerank_results, List.filterMap_cons] at ih ⊢
        simp [hg, hp, ih]
  exact ⟨h, by rw [h, List.length_map]⟩

/-- Membership is preserved by `dropWhile`. -/
theorem mem_of_mem_dropWhile {p : Char → Bool} :
    ∀ {l : List Char} {c : Char}, c ∈ l.dropWhile p → c ∈ l := by
  intro l
  induction l with
  | nil => intro c hc; simp at hc
  | cons a as ih =>
      intro c hc
      rw [List.dropWhile_cons] at hc
      by_cases hpa : p a = true
      · simp only [hpa, if_true] at hc
        exact List.mem_cons_of_mem _ (ih hc)
      · simp only [hpa, if_false] at hc
        exact hc

/-- Every character of the trimmed string occurs in the original. -/
theorem mem_of_mem_trimChars {s : List Char} {c : Char}
    (hc : c ∈ trimChars s) : c ∈ s := by
  unfold trimChars at hc
  rw [List.mem_reverse] at hc
  have h1 : c ∈ (s.dropWhile rustIsWhitespace).reverse := mem_of_mem_dropWhile hc
  rw [List.mem_reverse] at h1
  exact mem_of_mem_dropWhile h1

/-- On ASCII-only strings the UTF-8 byte length is the character count. -/
theorem utf8Len_ascii :
    ∀ (l : List Char), (∀ c ∈ l, c.toNat < 128) → utf8Len l = l.length := by
  intro l h
  induction l with
  | nil => rfl
  | cons c cs ih =>
      have hc : c.toNat < 128 := h c (List.mem_cons_self c cs)
      have hcs : ∀ x ∈ cs, x.toNat < 128 := fun x hx => h x (List.mem_cons_of_mem _ hx)
      simp only [utf8Len, List.map_cons, List.sum_cons, List.length_cons] at ih ⊢
      rw [ih hcs, utf8CharLen, if_pos hc]
      omega

/-- C9 amended: a sub-question is accepted iff the UTF-8 **byte** length
of its trimmed text is in `[5, 300]` (Rust `str::len` counts bytes); on
ASCII-only text this coincides with the character count, which is how the
claim's character reading holds in the ASCII case. -/
theorem is_valid_query_amended (q : List Char) :
    (is_valid_query q = true ↔
      5 ≤ utf8Len (trimChars q) ∧ utf8Len (trimChars q) ≤ 300) ∧
    ((∀ c ∈ q, c.toNat < 128) →
      utf8Len (trimChars q) = (trimChars q).length) := by
  refine ⟨by simp [is_valid_query], fun h => utf8Len_ascii _ ?_⟩
  exact fun c hc => h c (mem_of_mem_trimChars hc)

/-- Witness for C9 amended at a concrete ASCII input. -/
theorem is_valid_query_amended_witness :
    utf8Len (trimChars ['h', 'e', 'l', 'l', 'o']) =
      (trimChars ['h', 'e', 'l', 'l', 'o']).length :=
  (is_valid_query_amended ['h', 'e', 'l', 'l', 'o']).2 (by decide)

/-- Soundness half of the amended C4: every scored result was built from a
row at distance `d` with score `1 − d`, and passed the `score < threshold`
filter. -/
theorem parse_sound :
    ∀ (rows : List RawRow) (t : ℚ) (r : QueryResult),
      r ∈ parse_query_results rows (some t) → ∀ s, r.score = some s →
        t ≤ s ∧ ∃ row ∈ rows, row.distance = some (1 - s) := by
  intro rows t
  induction rows with
  | nil => intro r hr; simp [parse_query_results] at hr
  | cons row rest ih =>
      intro r hr s hs
      rcases hd : row.distance with _ | d
      · rw [parse_query_results, List.filterMap_cons] at hr
        simp only [hd, Option.map_none'] at hr
        rcases List.mem_cons.mp hr with h1 | h2
        · subst h1
          simp [rowToResult] at hs
        · obtain ⟨ht, row', hrow', hdist⟩ := ih r h2 s hs
          exact ⟨ht, row', List.mem_cons_of_mem _ hrow', hdist⟩
      · by_cases hlt : 1 - d < t
        · rw [parse_query_results, List.filterMap_cons] at hr
          simp only [hd, Option.map_some', if_pos hlt] at hr
          obtain ⟨ht, row', hrow', hdist⟩ := ih r hr s hs
          exact ⟨ht, row', List.mem_cons_of_mem _ hrow', hdist⟩
        · rw [parse_query_results, List.filterMap_cons] at hr
          simp only [hd, Option.map_some', if_neg hlt] at hr
          rcases List.mem_cons.mp hr with h1 | h2
          · subst h1
            simp only [rowToResult, Option.some.injEq] at hs
            refine ⟨by rw [← hs]; exact not_lt.mp hlt, row,
              List.mem_cons_self _ _, ?_⟩
            rw [hd, ← hs]
            norm_num
          · obtain ⟨ht, row', hrow', hdist⟩ := ih r h2 s hs
            exact ⟨ht, row', List.mem_cons_of_mem _ hrow', hdist⟩

/-- Completeness half of the amended C4: every row whose score `1 − d`
clears the threshold is returned. -/
theorem parse_complete :
    ∀ (rows : List RawRow) (t : ℚ) (row : RawRow), row ∈ rows →
      ∀ d, row.distance = some d → t ≤ 1 - d →
        rowToResult row (some (1 - d)) ∈ parse_query_results rows (some t) := by
  intro rows t
  induction rows with
  | nil => intro row hrow; simp at hrow
  | cons r0 rest ih =>
      intro row hrow d hd hle
      rcases List.mem_cons.mp hrow with h1 | h2
      · subst h1
        rw [parse_query_results, List.filterMap_cons]
        simp only [hd, Option.map_some', if_neg (not_lt.mpr hle)]
        exact List.mem_cons_self _ _
      · have htail := ih row h2 d hd hle
        rw [parse_query_results, List.filterMap_cons]
        rcases hd0 : r0.distance with _ | d0
        · simp only [hd0, Option.map_none']
          exact List.mem_cons_of_mem _ htail
        · by_cases hlt : 1 - d0 < t
          · simp only [hd0, Option.map_some', if_pos hlt]
            exact htail
          · simp only [hd0, Option.map_some', if_neg hlt]
            exact List.mem_cons_of_mem _ htail

/-- C4 amended: `search_by_vector` attaches `score = 1 − d` (not
`1 − d/2`) to each row at L2 distance `d`, and a scored row is returned
iff its score clears the threshold: every returned scored result has
`score ≥ threshold` and comes from a row at distance `1 − score`, and
every row with `1 − d ≥ threshold` is returned. -/
theorem parse_query_results_amended (rows : List RawRow) (t : ℚ) :
    (∀ r ∈ parse_query_results rows (some t), ∀ s, r.score = some s →
        t ≤ s ∧ ∃ row ∈ rows, row.distance = some (1 - s)) ∧
    (∀ row ∈ rows, ∀ d, row.distance = some d → t ≤ 1 - d →
        rowToResult row (some (1 - d)) ∈ parse_query_results rows (some t)) :=
  ⟨fun r hr s hs => parse_sound rows t r hr s hs,
   fun row hrow d hd hle => parse_complete rows t row hrow d hd hle⟩

/-- Witness for C4 amended at a concrete row and threshold. -/
theorem parse_query_results_amended_witness :
    rowToResult ⟨"w", "wc", [], 0, some (1/5)⟩ (some (1 - 1/5)) ∈
      parse_query_results [⟨"w", "wc", [], 0, some (1/5)⟩] (some (1/2)) :=
  (parse_query_results_amended [⟨"w", "wc", [], 0, some (1/5)⟩] (1/2)).2
    ⟨"w", "wc", [], 0, some (1/5)⟩ (by simp) (1/5) rfl (by norm_num)

/-- Membership in a stable descending insertion. -/
theorem mem_insertDesc :
    ∀ (l : List MergedResult) (a x : MergedResult),
      a ∈ insertDesc x l ↔ a = x ∨ a ∈ l := by
  intro l
  induction l with
  | nil => intro a x; simp [insertDesc]
  | cons y ys ih =>
      intro a x
      rw [insertDesc]
      by_cases hxy : x.max_score < y.max_score
      · rw [if_pos hxy]
        simp only [List.mem_cons, ih]
        tauto
      · rw [if_neg hxy]
        simp only [List.mem_cons]

/-- Lemma: `insertDesc` preserves the descending ordering invariant. -/
theorem insertDesc_pairwise (x : MergedResult) :
    ∀ (l : List MergedResult),
      List.Pairwise (fun a b => b.max_score ≤ a.max_score) l →
      List.Pairwise (fun a b => b.max_score ≤ a.max_score) (insertDesc x l) := by
  intro l
  induction l with
  | nil => intro _; simp [insertDesc]
  | cons y ys ih =>
      intro h
      obtain ⟨hy, hys⟩ := List.pairwise_cons.mp h
      rw [insertDesc]
      by_cases hxy : x.max_score < y.max_score
      · rw [if_pos hxy]
        refine List.pairwise_cons.mpr ⟨?_, ih hys⟩
        intro z hz
        rcases (mem_insertDesc ys z x).mp hz with h1 | h2
        · rw [h1]
          exact le_of_lt hxy
        · exact hy z h2
      · rw [if_neg hxy]
        refine List.pairwise_cons.mpr ⟨?_, h⟩
        intro z hz
        rcases List.mem_cons.mp hz with h1 | h2
        · rw [h1]
          exact not_lt.mp hxy
        · exact (hy z h2).trans (not_lt.mp hxy)

/-- The stage-B sort is sorted by `max_score` descending. -/
theorem sortByMaxScoreDesc_pairwise :
    ∀ (l : List MergedResult),
      List.Pairwise (fun a b => b.max_score ≤ a.max_score)
        (sortByMaxScoreDesc l) := by
  intro l
  induction l with
  | nil => simp [sortByMaxScoreDesc]
  | cons x xs ih => exact insertDesc_pairwise x _ ih

/-- Stability of one insertion: restricted to any score class, inserting
`x` keeps the class's order, with `x` put before the class when it
belongs to it. -/
theorem filter_insertDesc (x : MergedResult) (s : ℚ) :
    ∀ (l : List MergedResult),
      (insertDesc x l).filter (fun m => decide (m.max_score = s)) =
        if x.max_score = s then
          x :: l.filter (fun m => decide (m.max_score = s))
        else l.filter (fun m => decide (m.max_score = s)) := by
  intro l
  induction l with
  | nil =>
      rw [insertDesc]
      by_cases hx : x.max_score = s <;> simp [hx]
  | cons y ys ih =>
      rw [insertDesc]
      by_cases hxy : x.max_score < y.max_score
      · rw [if_pos hxy]
        by_cases hx : x.max_score = s
        · have hy : ¬ y.max_score = s := by
            intro h
            rw [h, ← hx] at hxy
            exact lt_irrefl _ hxy
          simp [List.filter_cons, hy, ih, hx]
        · simp only [List.filter_cons, ih, if_neg hx]
      · rw [if_neg hxy]
        by_cases hx : x.max_score = s <;> simp [List.filter_cons, hx]

/-- Stability of the stage-B sort: restricted to any score class, the
sorted list equals the input list. -/
theorem filter_sortByMaxScoreDesc (s : ℚ) :
    ∀ (l : List MergedResult),
      (sortByMaxScoreDesc l).filter (fun m => decide (m.max_score = s)) =
        l.filter (fun m => decide (m.max_score = s)) := by
  intro l
  induction l with
  | nil => rfl
  | cons x xs ih =>
      rw [sortByMaxScoreDesc, filter_insertDesc]
      by_cases hx : x.max_score = s <;> simp [List.filter_cons, hx, ih]

/-- C8 counterexample: with the two equal-score memories `a` (first
encountered) and `b`, the `HashMap` iteration order `["b", "a"]` — a
permutation of the key list, hence admissible for `into_values()` — makes
the stage-B sort output `b` before `a`: ties are **not** resolved by
first-encounter (insertion) order. -/
theorem merge_tie_order_cex :
    (stageA subsC8).map (fun m => (m.memory.id, m.max_score)) =
      [("a", 1), ("b", 1)] ∧
    List.Perm ["b", "a"] ((stageA subsC8).map (fun m => m.memory.id)) ∧
    (sortedOf subsC8 ["b", "a"]).map (fun m => (m.memory.id, m.max_score)) =
      [("b", 1), ("a", 1)] := by
  decide

/-- C8 amended: stage B stably sorts the `HashMap`'s value sequence by
`max_score` descending; for every iteration order, the output is sorted
and, within each score class, preserves that (unspecified) iteration
order — first-encounter order is not guaranteed. -/
theorem merge_sort_stable_amended (subs : List SubQueryResult)
    (order : List String) (s : ℚ) :
    List.Pairwise (fun a b => b.max_score ≤ a.max_score)
      (sortedOf subs order) ∧
    (sortedOf subs order).filter (fun m => decide (m.max_score = s)) =
      (into_values (stageA subs) order).filter
        (fun m => decide (m.max_score = s)) :=
  ⟨sortByMaxScoreDesc_pairwise _, filter_sortByMaxScoreDesc s _⟩

/-- Per-leaf scan: at most `min_per_leaf − count` further ids are added. -/
theorem collectLeaf_length_le (label : String) (n : Nat) :
    ∀ (l : List MergedResult) (g : List String) (count : Nat),
      (collectLeaf label n l g count).length ≤ g.length + (n - count) := by
  intro l
  induction l with
  | nil => intro g count; simp [collectLeaf]
  | cons m ms ih =>
      intro g count
      rw [collectLeaf]
      split_ifs with h1 h2
      · exact Nat.le_add_right _ _
      · have h := ih (g ++ [m.memory.id]) (count + 1)
        rw [List.length_append] at h
        simp only [List.length_singleton] at h
        omega
      · exact ih g count

/-- Per-leaf scan: the accumulator only grows. -/
theorem collectLeaf_mono (label : String) (n : Nat) :
    ∀ (l : List MergedResult) (g : List String) (count : Nat) (id : String),
      id ∈ g → id ∈ collectLeaf label n l g count := by
  intro l
  induction l with
  | nil => intro g count id hid; simpa [collectLeaf] using hid
  | cons m ms ih =>
      intro g count id hid
      rw [collectLeaf]
      split_ifs with h1 h2
      · exact hid
      · exact ih _ _ id (List.mem_append_left _ hid)
      · exact ih _ _ id hid

/-- Per-leaf scan: every collected id is an old one or an id of the
scanned list. -/
theorem collectLeaf_sub (label : String) (n : Nat) :
    ∀ (l : List MergedResult) (g : List String) (count : Nat) (id : String),
      id ∈ collectLeaf label n l g count →
      id ∈ g ∨ id ∈ l.map (fun m => m.memory.id) := by
  intro l
  induction l with
  | nil => intro g count id hid; rw [collectLeaf] at hid; exact Or.inl hid
  | cons m ms ih =>
      intro g count id hid
      rw [collectLeaf] at hid
      split_ifs at hid with h1 h2
      · exact Or.inl hid
      · rcases ih _ _ id hid with hg | hl
        · rcases List.mem_append.mp hg with hg1 | hg2
          · exact Or.inl hg1
          · right
            simp only [List.mem_singleton] at hg2
            rw [hg2]
            exact List.mem_map_of_mem _ (List.mem_cons_self _ _)
        · right
          simp only [List.map_cons, List.mem_cons]
          exact Or.inr hl
      · rcases ih _ _ id hid with hg | hl
        · exact Or.inl hg
        · right
          simp only [List.map_cons, List.mem_cons]
          exact Or.inr hl

/-- Per-leaf scan: duplicate-freedom is preserved (an id is only added
when not yet guaranteed). -/
theorem collectLeaf_nodup (label : String) (n : Nat) :
    ∀ (l : List MergedResult) (g : List String) (count : Nat),
      g.Nodup → (collectLeaf label n l g count).Nodup := by
  intro l
  induction l with
  | nil => intro g count h; simpa [collectLeaf] using h
  | cons m ms ih =>
      intro g count h
      rw [collectLeaf]
      split_ifs with h1 h2
      · exact h
      · refine ih _ _ ?_
        simp [List.nodup_append, h, h2.2]
      · exact ih _ _ h

/-- C1, size half: stage C marks at most `min_per_leaf` ids per leaf. -/
theorem collect_guaranteed_length_le (sorted : List MergedResult)
    (subs : List SubQueryResult) (n : Nat) :
    (collect_guaranteed_results sorted subs n).length ≤ subs.length * n := by
  suffices h : ∀ (subs' : List SubQueryResult) (g : List String),
      (subs'.foldl (fun g sub => collectLeaf (source_label sub) n sorted g 0)
        g).length ≤ g.length + subs'.length * n by
    simpa [collect_guaranteed_results] using h subs []
  intro subs'
  induction subs' with
  | nil => intro g; simp
  | cons sub rest ih =>
      intro g
      have h1 := collectLeaf_length_le (source_label sub) n sorted g 0
      have h2 := ih (collectLeaf (source_label sub) n sorted g 0)
      have h3 : (rest.length + 1) * n = rest.length * n + n := by ring
      simp only [List.foldl_cons, List.length_cons]
      omega

/-- The guaranteed id list is duplicate-free. -/
theorem collect_guaranteed_nodup (sorted : List MergedResult)
    (subs : List SubQueryResult) (n : Nat) :
    (collect_guaranteed_results sorted subs n).Nodup := by
  suffices h : ∀ (subs' : List SubQueryResult) (g : List String), g.Nodup →
      (subs'.foldl (fun g sub => collectLeaf (source_label sub) n sorted g 0)
        g).Nodup by
    exact h subs [] List.nodup_nil
  intro subs'
  induction subs' with
  | nil => intro g hg; simpa using hg
  | cons sub rest ih =>
      intro g hg
      exact ih _ (collectLeaf_nodup _ _ _ _ _ hg)

/-- Every guaranteed id is the id of an element of the sorted list. -/
theorem collect_guaranteed_sub (sorted : List MergedResult)
    (subs : List SubQueryResult) (n : Nat) :
    ∀ id ∈ collect_guaranteed_results sorted subs n,
      id ∈ sorted.map (fun m => m.memory.id) := by
  suffices h : ∀ (subs' : List SubQueryResult) (g : List String),
      (∀ id ∈ g, id ∈ sorted.map (fun m => m.memory.id)) →
      ∀ id ∈ subs'.foldl
          (fun g sub => collectLeaf (source_label sub) n sorted g 0) g,
        id ∈ sorted.map (fun m => m.memory.id) by
    exact h subs [] (by simp)
  intro subs'
  induction subs' with
  | nil => intro g hg id hid; exact hg id (by simpa using hid)
  | cons sub rest ih =>
      intro g hg id hid
      refine ih _ ?_ id hid
      intro i hi
      rcases collectLeaf_sub _ _ _ _ _ _ hi with h1 | h2
      · exact hg i h1
      · exact h2

/-- Invariant of the first loop of `build_final_results`: the seen set is
exactly the id sequence of the accumulated results, it stays
duplicate-free and inside the guaranteed set, it only grows, every
guaranteed id is either taken or still ahead unless the early return
fired, and the early return fires only with `max_total` results taken. -/
theorem finalLoop1_invariant (g : List String) (maxTotal : Nat) :
    ∀ (l : List MergedResult) (seen : List String) (acc : List MergedResult),
      seen = acc.map (fun m => m.memory.id) →
      seen.Nodup →
      (∀ id ∈ seen, id ∈ g) →
      ((finalLoop1 g maxTotal l seen acc).2.1 =
          ((finalLoop1 g maxTotal l seen acc).1).map (fun m => m.memory.id)) ∧
      ((finalLoop1 g maxTotal l seen acc).2.1).Nodup ∧
      (∀ id ∈ (finalLoop1 g maxTotal l seen acc).2.1, id ∈ g) ∧
      (∀ id ∈ seen, id ∈ (finalLoop1 g maxTotal l seen acc).2.1) ∧
      ((∀ id ∈ g, id ∈ seen ∨ id ∈ l.map (fun m => m.memory.id)) →
        (finalLoop1 g maxTotal l seen acc).2.2 = false →
        ∀ id ∈ g, id ∈ (finalLoop1 g maxTotal l seen acc).2.1) ∧
      ((finalLoop1 g maxTotal l seen acc).2.2 = true →
        maxTotal ≤ ((finalLoop1 g maxTotal l seen acc).2.1).length) := by
  intro l
  induction l with
  | nil =>
      intro seen acc hA hB hC
      rw [finalLoop1]
      refine ⟨hA, hB, hC, fun id hid => hid, fun hreach _ id hid => ?_, by simp⟩
      rcases hreach id hid with h | h
      · exact h
      · simp at h
  | cons x xs ih =>
      intro seen acc hA hB hC
      rw [finalLoop1]
      split_ifs with h1 h2
      · -- taken, early return fires
        refine ⟨by simp [hA], ?_, ?_, ?_, by simp, ?_⟩
        · simp [List.nodup_append, hB, h1.2]
        · intro id hid
          rcases List.mem_append.mp hid with hs | hx
          · exact hC id hs
          · simp only [List.mem_singleton] at hx
            rw [hx]
            exact h1.1
        · intro id hid
          exact List.mem_append_left _ hid
        · intro _
          simp only [List.length_append, List.length_singleton]
          have : seen.length = acc.length := by rw [hA, List.length_map]
          simp only [List.length_append, List.length_singleton] at h2
          omega
      · -- taken, loop continues
        have hA' : seen ++ [x.memory.id] =
            (acc ++ [x]).map (fun m => m.memory.id) := by simp [hA]
        have hB' : (seen ++ [x.memory.id]).Nodup := by
          simp [List.nodup_append, hB, h1.2]
        have hC' : ∀ id ∈ seen ++ [x.memory.id], id ∈ g := by
          intro id hid
          rcases List.mem_append.mp hid with hs | hx
          · exact hC id hs
          · simp only [List.mem_singleton] at hx
            rw [hx]
            exact h1.1
        obtain ⟨iA, iB, iC, iD, iE, iF⟩ := ih (seen ++ [x.memory.id]) (acc ++ [x]) hA' hB' hC'
        refine ⟨iA, iB, iC, ?_, ?_, iF⟩
        · intro id hid
          exact iD id (List.mem_append_left _ hid)
        · intro hreach hfalse id hid
          refine iE ?_ hfalse id hid
          intro i hi
          rcases hreach i hi with hs | hl
          · exact Or.inl (List.mem_append_left _ hs)
          · rcases List.mem_map.mp hl with ⟨m, hm, hmid⟩
            rcases List.mem_cons.mp hm with hmx | hmxs
            · left
              rw [hmx] at hmid
              rw [← hmid]
              exact List.mem_append_right _ (List.mem_singleton_self _)
            · exact Or.inr (hmid ▸ List.mem_map_of_mem _ hmxs)
      · -- skipped
        obtain ⟨iA, iB, iC, iD, iE, iF⟩ := ih seen acc hA hB hC
        refine ⟨iA, iB, iC, iD, ?_, iF⟩
        intro hreach hfalse id hid
        refine iE ?_ hfalse id hid
        intro i hi
        rcases hreach i hi with hs | hl
        · exact Or.inl hs
        · rcases List.mem_map.mp hl with ⟨m, hm, hmid⟩
          rcases List.mem_cons.mp hm with hmx | hmxs
          · left
            rw [hmx] at hmid
            rcases not_and_or.mp h1 with hng | hns
            · exact absurd (hmid.symm ▸ hi) hng
            · rw [← hmid]
              exact not_not.mp hns
          · exact Or.inr (hmid ▸ List.mem_map_of_mem _ hmxs)

/-- The second loop of `build_final_results` only appends. -/
theorem finalLoop2_mem_acc (maxTotal : Nat) :
    ∀ (l : List MergedResult) (seen : List String) (acc : List MergedResult)
      (x : MergedResult), x ∈ acc → x ∈ finalLoop2 maxTotal l seen acc := by
  intro l
  induction l with
  | nil => intro seen acc x hx; simpa [finalLoop2] using hx
  | cons y ys ih =>
      intro seen acc x hx
      rw [finalLoop2]
      split_ifs with h1 h2
      · exact hx
      · exact ih _ _ x hx
      · exact ih _ _ x (List.mem_append_left _ hx)

/-- The second loop preserves duplicate-freedom of the result ids. -/
theorem finalLoop2_nodup (maxTotal : Nat) :
    ∀ (l : List MergedResult) (seen : List String) (acc : List MergedResult),
      (acc.map (fun m => m.memory.id)).Nodup →
      (∀ id ∈ acc.map (fun m => m.memory.id), id ∈ seen) →
      ((finalLoop2 maxTotal l seen acc).map (fun m => m.memory.id)).Nodup := by
  intro l
  induction l with
  | nil => intro seen acc h1 _; simpa [finalLoop2] using h1
  | cons y ys ih =>
      intro seen acc h1 h2
      rw [finalLoop2]
      split_ifs with hb hs
      · exact h1
      · exact ih _ _ h1 h2
      · refine ih _ _ ?_ ?_
        · simp only [List.map_append, List.map_cons, List.map_nil]
          rw [List.nodup_append]
          refine ⟨h1, List.nodup_singleton _, ?_⟩
          intro a ha hay
          simp only [List.mem_singleton] at hay
          exact hs (hay ▸ h2 a ha)
        · intro id hid
          simp only [List.map_append, List.map_cons, List.map_nil] at hid
          rcases List.mem_append.mp hid with ha | hy
          · exact List.mem_append_left _ (h2 id ha)
          · simp only [List.mem_singleton] at hy
            rw [hy]
            exact List.mem_append_right _ (List.mem_singleton_self _)

/-- The ids of `build_final_results` are duplicate-free. -/
theorem build_final_results_nodup (sorted : List MergedResult)
    (g : List String) (maxTotal : Nat) :
    ((build_final_results sorted g maxTotal).map
      (fun m => m.memory.id)).Nodup := by
  have inv := finalLoop1_invariant g maxTotal sorted [] [] rfl List.nodup_nil
    (by simp)
  unfold build_final_results
  rcases hfl : finalLoop1 g maxTotal sorted [] [] with ⟨res, seen, early⟩
  rw [hfl] at inv
  obtain ⟨hA, hB, _, _, _, _⟩ := inv
  simp only at hA hB
  cases early
  · exact finalLoop2_nodup maxTotal sorted seen res (hA ▸ hB)
      (fun id hid => hA ▸ hid)
  · exact hA ▸ hB

/-- When the guaranteed set fits under `max_total`, the final list
contains each of its ids. -/
theorem build_final_superset (sorted : List MergedResult) (g : List String)
    (maxTotal : Nat)
    (hsub : ∀ id ∈ g, id ∈ sorted.map (fun m => m.memory.id))
    (hlen : g.length ≤ maxTotal) :
    ∀ id ∈ g, id ∈ (build_final_results sorted g maxTotal).map
      (fun m => m.memory.id) := by
  intro id hid
  have inv := finalLoop1_invariant g maxTotal sorted [] [] rfl List.nodup_nil
    (by simp)
  unfold build_final_results
  rcases hfl : finalLoop1 g maxTotal sorted [] [] with ⟨res, seen, early⟩
  rw [hfl] at inv
  obtain ⟨hA, hB, hC, _, hE, hF⟩ := inv
  simp only at hA hB hC hE hF
  cases early
  · -- loop 1 exhausted the list: every guaranteed id is already taken
    have hseen : id ∈ seen :=
      hE (fun i hi => Or.inr (hsub i hi)) rfl id hid
    rw [hA] at hseen
    rcases List.mem_map.mp hseen with ⟨x, hx, hxid⟩
    exact hxid ▸ List.mem_map_of_mem _ (finalLoop2_mem_acc maxTotal sorted seen res x hx)
  · -- early return: cardinality forces the seen set to cover g
    by_contra hnid
    rw [hA] at hnid hB
    have hsubg : (id :: res.map (fun m => m.memory.id)) ⊆ g := by
      intro a ha
      rcases List.mem_cons.mp ha with h | h
      · exact h ▸ hid
      · exact hC a (hA ▸ h)
    have hndl : (id :: res.map (fun m => m.memory.id)).Nodup :=
      List.nodup_cons.mpr ⟨hnid, hB⟩
    have hsp := List.subperm_of_subset hndl hsubg
    have hle := hsp.length_le
    have hfl1 := hF rfl
    rw [hA, List.length_map] at hfl1
    simp only [List.length_cons, List.length_map] at hle
    omega

/-- C1 counterexample: two leaves with distinct memories,
`min_per_leaf = 1`, `max_total_results = 1`.  The guaranteed set is
`{m1, m2}` (size 2 ≤ leaves × min_per_leaf), but the final list is `[m1]`
under every admissible `HashMap` iteration order: it is **not** a
superset of the guaranteed set. -/
theorem merge_guaranteed_superset_cex :
    ("m2" ∈ collect_guaranteed_results (sortedOf subsC1 ["m1", "m2"]) subsC1
        cfgC1.min_per_leaf) ∧
    (merge_results subsC1 cfgC1 ["m1", "m2"]).map (fun m => m.memory.id) =
      ["m1"] ∧
    "m2" ∉ (merge_results subsC1 cfgC1 ["m1", "m2"]).map
      (fun m => m.memory.id) ∧
    (merge_results subsC1 cfgC1 ["m2", "m1"]).map (fun m => m.memory.id) =
      ["m1"] ∧
    List.Perm ["m1", "m2"] ((stageA subsC1).map (fun m => m.memory.id)) ∧
    List.Perm ["m2", "m1"] ((stageA subsC1).map (fun m => m.memory.id)) := by
  decide

/-- C1 amended: for every merge input and every `HashMap` iteration
order, the stage-C guaranteed id set has size at most
(number of leaves) × `min_per_leaf`; and **provided** the guaranteed set
has at most `max_total_results` elements, the final result list of
`merge_results` contains every id of it (the original unconditional
superset claim fails once the guaranteed set exceeds
`max_total_results`, see the counterexample). -/
theorem merge_guaranteed_amended (subs : List SubQueryResult)
    (cfg : MultiQueryConfig) (order : List String) :
    (collect_guaranteed_results (sortedOf subs order) subs
        cfg.min_per_leaf).length ≤ subs.length * cfg.min_per_leaf ∧
    ((collect_guaranteed_results (sortedOf subs order) subs
        cfg.min_per_leaf).length ≤ cfg.max_total_results →
      ∀ id ∈ collect_guaranteed_results (sortedOf subs order) subs
          cfg.min_per_leaf,
        id ∈ (merge_results subs cfg order).map (fun m => m.memory.id)) := by
  refine ⟨collect_guaranteed_length_le _ _ _, fun hlen => ?_⟩
  exact build_final_superset (sortedOf subs order) _ cfg.max_total_results
    (collect_guaranteed_sub _ _ _) hlen

/-- Witness for C1 amended: with `min_per_leaf = 1`,
`max_total_results = 20`, both guaranteed ids survive into the final
list. -/
theorem merge_guaranteed_amended_witness :
    "m1" ∈ (merge_results subsC1 ⟨50, 5, 1, 20, 0⟩ ["m1", "m2"]).map
      (fun m => m.memory.id) :=
  (merge_guaranteed_amended subsC1 ⟨50, 5, 1, 20, 0⟩ ["m1", "m2"]).2
    (by decide) "m1" (by decide)

/-- C5: the final user-facing list of the multi-query search has length
at most `min(limit, max_total_results)` and no two entries share a
memory id — for every input and every `HashMap` iteration order. -/
theorem final_results_bounded_nodup (subs : List SubQueryResult)
    (cfg : MultiQueryConfig) (limit : Nat) (order : List String) :
    (final_memories subs cfg limit order).length ≤
        min limit cfg.max_total_results ∧
    ((final_memories subs cfg limit order).map QueryResult.id).Nodup := by
  constructor
  · unfold final_memories
    rw [List.length_map]
    exact List.length_take_le _ _
  · unfold final_memories
    rw [List.map_map, List.map_take]
    have h : ((merge_results subs cfg order).map
        (fun m => m.memory.id)).Nodup :=
      build_final_results_nodup (sortedOf subs order) _ cfg.max_total_results
    exact h.sublist (List.take_sublist _ _)

/-- Both branches of `processSubQuery` carry the same tree: the one with
the new child added. -/
theorem processSubQuery_fst (cfg : DecompositionConfig) (parent : Option Nat)
    (level : Nat) (acc : DecompositionTree × List QEntry) (sq : SubQuery) :
    (processSubQuery cfg parent level acc sq).1 =
      (addChild acc.1 parent (SearchDimension.from_str sq.dimension)
        sq.query).1 := by
  obtain ⟨t, nextQ⟩ := acc
  rcases h : addChild t parent (SearchDimension.from_str sq.dimension) sq.query
    with ⟨t', nid⟩
  rw [processSubQuery, h]
  dsimp only
  split_ifs <;> rfl

/-- Appending a child to a node's `children` never creates a new leaf. -/
theorem filter_length_map_update_le (pid nid : Nat) :
    ∀ (l : List TreeNode),
      ((l.map (fun n => if n.id = pid
          then { n with children := n.children ++ [nid] } else n)).filter
        (fun n => n.children.isEmpty)).length ≤
      (l.filter (fun n => n.children.isEmpty)).length := by
  intro l
  induction l with
  | nil => simp
  | cons n ns ih =>
      simp only [List.map_cons, List.filter_cons]
      by_cases h : n.id = pid
      · rw [if_pos h]
        have hne : (({ n with children := n.children ++ [nid] } :
            TreeNode).children.isEmpty) = false := by simp
        rw [hne]
        simp only [Bool.false_eq_true, if_false]
        by_cases hl : n.children.isEmpty = true
        · rw [if_pos hl]
          simp only [List.length_cons]
          omega
        · rw [if_neg hl]
          exact ih
      · rw [if_neg h]
        by_cases hl : n.children.isEmpty = true
        · rw [if_pos hl, if_pos hl]
          simp only [List.length_cons]
          omega
        · rw [if_neg hl, if_neg hl]
          exact ih

/-- Lemma: `addChild` raises the leaf count by at most one. -/
theorem leaf_count_addChild (t : DecompositionTree) (parent : Option Nat)
    (dim : SearchDimension) (q : String) :
    (addChild t parent dim q).1.leaf_count ≤ t.leaf_count + 1 := by
  rcases parent with _ | pid
  · simp [addChild, DecompositionTree.leaf_count, List.filter_append]
  · simp only [addChild, DecompositionTree.leaf_count]
    refine le_trans (filter_length_map_update_le pid t.id_counter _) ?_
    simp [List.filter_append]

/-- One sub-question step raises the leaf count by at most one. -/
theorem leaf_count_processSubQuery (cfg : DecompositionConfig)
    (parent : Option Nat) (level : Nat) (acc : DecompositionTree × List QEntry)
    (sq : SubQuery) :
    (processSubQuery cfg parent level acc sq).1.leaf_count ≤
      acc.1.leaf_count + 1 := by
  rw [processSubQuery_fst]
  exact leaf_count_addChild _ _ _ _

/-- Folding a list of sub-questions raises the leaf count by at most its
length. -/
theorem leaf_count_foldl_subqueries (cfg : DecompositionConfig)
    (parent : Option Nat) (level : Nat) :
    ∀ (sqs : List SubQuery) (acc : DecompositionTree × List QEntry),
      ((sqs.foldl (processSubQuery cfg parent level) acc).1).leaf_count ≤
        acc.1.leaf_count + sqs.length := by
  intro sqs
  induction sqs with
  | nil => intro acc; simp
  | cons sq rest ih =>
      intro acc
      have h1 := leaf_count_processSubQuery cfg parent level acc sq
      have h2 := ih (processSubQuery cfg parent level acc sq)
      simp only [List.foldl_cons, List.length_cons]
      omega

/-- One queue entry raises the leaf count by at most `max_children`. -/
theorem leaf_count_processEntry (cfg : DecompositionConfig)
    (response : Option (List SubQuery)) (entry : QEntry)
    (acc : DecompositionTree × List QEntry) :
    (processEntry cfg response entry acc).1.leaf_count ≤
      acc.1.leaf_count + cfg.max_children := by
  rcases response with _ | sqs
  · simp [processEntry]
  · rw [processEntry]
    have h1 := leaf_count_foldl_subqueries cfg entry.1 entry.2.2
      (sqs.take cfg.max_children) acc
    have h2 : (sqs.take cfg.max_children).length ≤ cfg.max_children :=
      List.length_take_le _ _
    omega

/-- One BFS level raises the leaf count by at most
`queue length × max_children`. -/
theorem leaf_count_processEntries (cfg : DecompositionConfig)
    (oracle : Nat → Nat → Option (List SubQuery)) (lvl : Nat) :
    ∀ (es : List QEntry) (i : Nat) (acc : DecompositionTree × List QEntry),
      (processEntries cfg oracle lvl i es acc).1.leaf_count ≤
        acc.1.leaf_count + es.length * cfg.max_children := by
  intro es
  induction es with
  | nil => intro i acc; simp [processEntries]
  | cons e rest ih =>
      intro i acc
      have h1 := leaf_count_processEntry cfg (oracle lvl i) e acc
      have h2 := ih (i + 1) (processEntry cfg (oracle lvl i) e acc)
      have h3 : (rest.length + 1) * cfg.max_children =
          rest.length * cfg.max_children + cfg.max_children := by ring
      simp only [processEntries, List.length_cons]
      omega

/-- C2 amended: the leaf cap is soft.  Once the leaf count has reached
`max_total_leaves`, the BFS loop adds nothing more (it returns the tree
unchanged); and a single BFS level adds at most
`queue length × max_children` leaves — so the count may overshoot the cap,
but only within the last processed level (see the counterexample for an
overshoot to 16 with the default cap 12). -/
theorem decomposition_leaf_cap_amended (cfg : DecompositionConfig)
    (oracle : Nat → Nat → Option (List SubQuery)) (fuel lvl : Nat)
    (t : DecompositionTree) (queue : List QEntry) :
    (cfg.max_total_leaves ≤ t.leaf_count →
      buildLoop cfg oracle fuel lvl t queue = t) ∧
    (processLevel cfg oracle lvl t queue).1.leaf_count ≤
      t.leaf_count + queue.length * cfg.max_children := by
  constructor
  · intro h
    cases fuel with
    | zero => rfl
    | succ n =>
        rw [buildLoop]
        split_ifs <;> rfl
  · exact leaf_count_processEntries cfg oracle lvl queue 0 (t, [])

/-- Witness for C2 amended: with the cap already reached (cap 0, empty
tree), the loop returns the tree unchanged. -/
theorem decomposition_leaf_cap_amended_witness :
    ((⟨1, 0, 1⟩ : DecompositionConfig).max_total_leaves ≤
        DecompositionTree.new.leaf_count) ∧
    buildLoop ⟨1, 0, 1⟩ (fun _ _ => none) 1 0 DecompositionTree.new
      [(none, "q", 0)] = DecompositionTree.new :=
  ⟨by decide,
   (decomposition_leaf_cap_amended ⟨1, 0, 1⟩ (fun _ _ => none) 1 0
      DecompositionTree.new [(none, "q", 0)]).1 (by decide)⟩

/-- Every node of the tree after `addChild` has the new child's query or
the query of an existing node. -/
theorem addChild_nodes_query (t : DecompositionTree) (parent : Option Nat)
    (dim : SearchDimension) (q : String) :
    ∀ node ∈ (addChild t parent dim q).1.nodes,
      node.query = q ∨ ∃ n ∈ t.nodes, node.query = n.query := by
  intro node h
  rcases parent with _ | pid
  · simp only [addChild] at h
    rcases List.mem_append.mp h with h1 | h2
    · exact Or.inr ⟨node, h1, rfl⟩
    · simp only [List.mem_singleton] at h2
      rw [h2]
      exact Or.inl rfl
  · simp only [addChild, List.mem_map] at h
    obtain ⟨n, hn, hnode⟩ := h
    have hq : node.query = n.query := by
      rw [← hnode]
      split_ifs <;> rfl
    rcases List.mem_append.mp hn with h1 | h2
    · exact Or.inr ⟨n, h1, hq⟩
    · simp only [List.mem_singleton] at h2
      rw [h2] at hq
      exact Or.inl hq

/-- Folding sub-questions with origin evidence preserves the
"every node's query comes from the oracle" invariant. -/
theorem foldl_processSubQuery_nodes_query (cfg : DecompositionConfig)
    (oracle : Nat → Nat → Option (List SubQuery)) (parent : Option Nat)
    (level : Nat) :
    ∀ (sqs' : List SubQuery) (acc : DecompositionTree × List QEntry),
      (∀ node ∈ acc.1.nodes, ∃ l i sqs sq, oracle l i = some sqs ∧
        sq ∈ sqs ∧ node.query = sq.query) →
      (∀ sq ∈ sqs', ∃ l i sqs0, oracle l i = some sqs0 ∧ sq ∈ sqs0) →
      ∀ node ∈ ((sqs'.foldl (processSubQuery cfg parent level) acc).1).nodes,
        ∃ l i sqs sq, oracle l i = some sqs ∧ sq ∈ sqs ∧
          node.query = sq.query := by
  intro sqs'
  induction sqs' with
  | nil => intro acc hacc _ node h; exact hacc node h
  | cons sq rest ih =>
      intro acc hacc hev node h
      refine ih (processSubQuery cfg parent level acc sq) ?_ ?_ node h
      · intro nd hnd
        rw [processSubQuery_fst] at hnd
        rcases addChild_nodes_query acc.1 parent
          (SearchDimension.from_str sq.dimension) sq.query nd hnd with h1 | h2
        · obtain ⟨l, i, sqs0, hor, hm⟩ := hev sq (List.mem_cons_self _ _)
          exact ⟨l, i, sqs0, sq, hor, hm, h1⟩
        · obtain ⟨n, hn, hq⟩ := h2
          obtain ⟨l, i, sqs0, sq0, hor, hm, hq0⟩ := hacc n hn
          exact ⟨l, i, sqs0, sq0, hor, hm, hq ▸ hq0⟩
      · intro s hs
        exact hev s (List.mem_cons_of_mem _ hs)

/-- A BFS level preserves the oracle-origin invariant. -/
theorem processEntries_nodes_query (cfg : DecompositionConfig)
    (oracle : Nat → Nat → Option (List SubQuery)) (lvl : Nat) :
    ∀ (es : List QEntry) (i : Nat) (acc : DecompositionTree × List QEntry),
      (∀ node ∈ acc.1.nodes, ∃ l i0 sqs sq, oracle l i0 = some sqs ∧
        sq ∈ sqs ∧ node.query = sq.query) →
      ∀ node ∈ (processEntries cfg oracle lvl i es acc).1.nodes,
        ∃ l i0 sqs sq, oracle l i0 = some sqs ∧ sq ∈ sqs ∧
          node.query = sq.query := by
  intro es
  induction es with
  | nil => intro i acc hacc node h; exact hacc node h
  | cons e rest ih =>
      intro i acc hacc node h
      refine ih (i + 1) (processEntry cfg (oracle lvl i) e acc) ?_ node h
      rcases hresp : oracle lvl i with _ | sqs
      · simpa [processEntry, hresp] using hacc
      · rw [processEntry]
        refine foldl_processSubQuery_nodes_query cfg oracle e.1 e.2.2 _ acc
          hacc ?_
        intro sq hsq
        exact ⟨lvl, i, sqs, hresp, List.mem_of_mem_take hsq⟩

/-- The BFS loop preserves the oracle-origin invariant. -/
theorem buildLoop_nodes_query (cfg : DecompositionConfig)
    (oracle : Nat → Nat → Option (List SubQuery)) :
    ∀ (fuel lvl : Nat) (t : DecompositionTree) (queue : List QEntry),
      (∀ node ∈ t.nodes, ∃ l i sqs sq, oracle l i = some sqs ∧
        sq ∈ sqs ∧ node.query = sq.query) →
      ∀ node ∈ (buildLoop cfg oracle fuel lvl t queue).nodes,
        ∃ l i sqs sq, oracle l i = some sqs ∧ sq ∈ sqs ∧
          node.query = sq.query := by
  intro fuel
  induction fuel with
  | zero => intro lvl t queue ht node h; exact ht node h
  | succ n ih =>
      intro lvl t queue ht node h
      rw [buildLoop] at h
      split_ifs at h with h1 h2 h3
      · exact ht node h
      · exact ht node h
      · exact ht node h
      · rcases hpl : processLevel cfg oracle lvl t queue with ⟨t', nextQ⟩
        rw [hpl] at h
        refine ih (lvl + 1) t' nextQ ?_ node h
        intro nd hnd
        have := processEntries_nodes_query cfg oracle lvl queue 0 (t, []) ht
        rw [show processEntries cfg oracle lvl 0 queue (t, []) =
          processLevel cfg oracle lvl t queue from rfl, hpl] at this
        exact this nd hnd

/-- The BFS loop on an empty queue returns the tree unchanged. -/
theorem buildLoop_nil_queue (cfg : DecompositionConfig)
    (oracle : Nat → Nat → Option (List SubQuery)) :
    ∀ (fuel lvl : Nat) (t : DecompositionTree),
      buildLoop cfg oracle fuel lvl t [] = t := by
  intro fuel lvl t
  cases fuel with
  | zero => rfl
  | succ n => simp [buildLoop]

/-- C10: the original user query is never made a node — every node of the
decomposition tree takes its query text from a sub-question returned by
some LLM call (the root queue entry has no node id), and if the root
decomposition yields no valid sub-questions the tree is empty, so the
multi-query search takes its early return: no leaf exists, hence no
vector search runs over any text, in particular not over the original
query. -/
theorem tree_nodes_only_from_llm (q : String) (cfg : DecompositionConfig)
    (oracle : Nat → Nat → Option (List SubQuery)) :
    (∀ node ∈ (build_decomposition_tree q cfg oracle).nodes,
      ∃ lvl idx sqs sq, oracle lvl idx = some sqs ∧ sq ∈ sqs ∧
        node.query = sq.query) ∧
    ((oracle 0 0 = none ∨ oracle 0 0 = some []) →
      (build_decomposition_tree q cfg oracle).nodes = [] ∧
      searchedLeafQueries (build_decomposition_tree q cfg oracle) = []) := by
  constructor
  · exact buildLoop_nodes_query cfg oracle cfg.max_level 0
      DecompositionTree.new [(none, q, 0)] (by simp [DecompositionTree.new])
  · intro h
    have hnodes : (build_decomposition_tree q cfg oracle).nodes = [] := by
      unfold build_decomposition_tree
      cases hml : cfg.max_level with
      | zero => rfl
      | succ k =>
          rw [buildLoop]
          have hq : ([((none : Option Nat), q, 0)] : List QEntry).isEmpty = false := rfl
          rw [hq]
          simp only [Bool.false_eq_true, if_false]
          split_ifs with h1 h2
          · rfl
          · rfl
          · have hstep : processLevel cfg oracle 0 DecompositionTree.new
                [(none, q, 0)] = (DecompositionTree.new, []) := by
              rcases h with h | h <;>
                simp [processLevel, processEntries, processEntry, h]
            rw [hstep]
            dsimp only
            rw [buildLoop_nil_queue]
            rfl
    refine ⟨hnodes, ?_⟩
    simp [searchedLeafQueries, DecompositionTree.get_leaves, hnodes]

/-- Witness for C10 at concrete oracles: the head node of the overshoot
tree originates from an LLM sub-question, and the all-failing oracle
yields an empty tree. -/
theorem tree_nodes_only_from_llm_witness :
    (∃ lvl idx sqs sq, oracle16 lvl idx = some sqs ∧ sq ∈ sqs ∧
      ((build_decomposition_tree "orig" cfgDefault oracle16).nodes.headI).query =
        sq.query) ∧
    (build_decomposition_tree "memo" cfgDefault (fun _ _ => none)).nodes = [] :=
  ⟨(tree_nodes_only_from_llm "orig" cfgDefault oracle16).1 _ (by decide),
   ((tree_nodes_only_from_llm "memo" cfgDefault (fun _ _ => none)).2
      (Or.inl rfl)).1⟩

end Memo
